import Mathlib

/-!
Verification of the order-controller core of `src/McDonaldApp.py`.

The Python program is embedded shallowly:

* `Order`, `BotState`, `ControllerState` mirror the `Order`, `Bot` and
  `OrderController` classes.  Python object references into the shared
  `orders` list are represented by the (unique) `order_number`; the deque
  `pending_orders` therefore holds order numbers, and field mutation of an
  order goes through `updateOrder`.
* Wall-clock time (`datetime.now()`) is modelled by a logical clock
  `ControllerState.now : Nat` that advances whenever the source reads the
  clock to stamp a field; the serialization of the lock-protected critical
  sections makes successive stamps strictly increasing.
* The body of `Bot.run` (lines 28-50) is split into its two atomic effects
  on shared state: `botAcquire` (pop the queue head, mark it PROCESSING,
  stamp `start_time`) and `botComplete` (mark COMPLETE, stamp `end_time`).
  The cancellation branch (lines 38-43) executes under a `stop` request and
  is folded into `remove_bot` / `shutdown`, which join the thread.
* `Step` / `Reachable` close the operations of `OrderController` under
  arbitrary interleaving of menu commands and bot activity.
-/

namespace McDonaldApp

/-- The order type strings 'normal' / 'VIP' of the source. -/
inductive OrderType
  | normal
  | vip
deriving DecidableEq, Repr

/-- The status strings "PENDING" / "PROCESSING" / "COMPLETE" of the source. -/
inductive Status
  | PENDING
  | PROCESSING
  | COMPLETE
deriving DecidableEq, Repr

/-- `Order.__init__` (lines 8-15): number, type, status, creation time and the
two optional processing timestamps. -/
structure Order where
  order_number : Nat
  type : OrderType
  status : Status
  creation_time : Nat
  start_time : Option Nat
  end_time : Option Nat
deriving DecidableEq, Repr

/-- The shared-state face of a `Bot` (lines 20-26): its id, the
`stop_event` latch, the held order (by number) and whether the thread has
terminated. -/
structure BotState where
  bot_id : Nat
  stop_event : Bool
  current_order : Option Nat
  stopped : Bool
deriving DecidableEq, Repr

/-- `OrderController.__init__` (lines 58-65) plus the logical clock. -/
structure ControllerState where
  now : Nat
  orders : List Order
  pending_orders : List Nat
  order_number : Nat
  bots : List BotState
  bot_id_counter : Nat
deriving DecidableEq, Repr

def initialState : ControllerState :=
  { now := 0, orders := [], pending_orders := [], order_number := 0
    bots := [], bot_id_counter := 1 }

/-- Dereference an order number: the deque and the bots hold references to
the `Order` objects appended to `self.orders`; numbers are unique, so the
first (only) order with that number is the referenced object. -/
def findOrder (s : ControllerState) (n : Nat) : Option Order :=
  s.orders.find? (fun o => o.order_number == n)

/-- Mutation of a referenced order's fields, propagated to the shared list. -/
def updateOrder (n : Nat) (f : Order → Order) (orders : List Order) : List Order :=
  orders.map (fun o => if o.order_number = n then f o else o)

/-- `order.type.upper() == 'VIP'` for the queue entry `n` (line 77). -/
def isVipAt (s : ControllerState) (n : Nat) : Bool :=
  match findOrder s n with
  | some o => o.type == OrderType.vip
  | none => false

/-- The loop of lines 75-79: `index` ends as the length of the leading run of
VIP orders of the pending queue (the loop breaks at the first non-VIP). -/
def vipRunLength (s : ControllerState) : List Nat → Nat
  | [] => 0
  | n :: rest => if isVipAt s n then vipRunLength s rest + 1 else 0

/-- `deque.insert(index, x)` (line 80); an index beyond the end appends. -/
def insertAt : Nat → Nat → List Nat → List Nat
  | _, x, [] => [x]
  | 0, x, l => x :: l
  | i + 1, x, y :: l => y :: insertAt i x l

/-- `OrderController.add_order` (lines 67-85): allocate the next number,
construct the PENDING order, append it to `orders`, then insert it into
`pending_orders` — a VIP order right after the leading VIP run, a normal
order at the tail. -/
def add_order (t : OrderType) (s : ControllerState) : ControllerState :=
  let num := s.order_number + 1
  let newOrder : Order :=
    { order_number := num, type := t, status := Status.PENDING
      creation_time := s.now, start_time := none, end_time := none }
  let pending :=
    if t = OrderType.vip then
      insertAt (vipRunLength s s.pending_orders) num s.pending_orders
    else
      s.pending_orders ++ [num]
  { s with
    now := s.now + 1
    orders := s.orders ++ [newOrder]
    pending_orders := pending
    order_number := num }

/-- `OrderController.get_next_order` (lines 87-93): pop the queue head, or
return `None` (and change nothing) when the queue is empty. -/
def get_next_order (s : ControllerState) : ControllerState × Option Nat :=
  match s.pending_orders with
  | [] => (s, none)
  | n :: rest => ({ s with pending_orders := rest }, some n)

/-- `OrderController.add_bot` (lines 95-102): register and start a bot,
return its id. -/
def add_bot (s : ControllerState) : ControllerState × Nat :=
  let b : BotState :=
    { bot_id := s.bot_id_counter, stop_event := false
      current_order := none, stopped := false }
  ({ s with bots := s.bots ++ [b], bot_id_counter := s.bot_id_counter + 1 },
   s.bot_id_counter)

/-- The effect on the order store of `Bot.stop` joining a bot that holds an
order: the cancellation branch of `Bot.run` (lines 38-43) sets the held
order's status back to PENDING and clears its start time.  The order is not
re-inserted into the pending queue. -/
def cancelOrder (cur : Option Nat) (orders : List Order) : List Order :=
  match cur with
  | none => orders
  | some n =>
      updateOrder n
        (fun o => { o with status := Status.PENDING, start_time := none }) orders

/-- `OrderController.remove_bot` (lines 104-111): pop the most recently added
bot and stop it (set its latch and join, absorbing the cancellation branch of
`Bot.run`).  The Python function returns `None` on every path, hence the
second component is always `none`. -/
def remove_bot (s : ControllerState) : ControllerState × Option Nat :=
  match s.bots.getLast? with
  | none => (s, none)
  | some b =>
      ({ s with
         bots := s.bots.dropLast
         orders := cancelOrder b.current_order s.orders }, none)

/-- The loop of `OrderController.shutdown` (lines 197-201): stop every bot of
the pool in order.  `Bot.stop` sets the latch and joins; a joined bot has run
the cancellation branch if it held an order, and holds nothing afterwards.
The pool list itself is not cleared by the source. -/
def stopBots : List BotState → List Order → List BotState × List Order
  | [], orders => ([], orders)
  | b :: rest, orders =>
      let orders1 := cancelOrder b.current_order orders
      let b1 : BotState :=
        { b with stop_event := true, current_order := none, stopped := true }
      let r := stopBots rest orders1
      (b1 :: r.1, r.2)

/-- `OrderController.shutdown` (lines 197-201). -/
def shutdown (s : ControllerState) : ControllerState :=
  { s with
    bots := (stopBots s.bots s.orders).1
    orders := (stopBots s.bots s.orders).2 }

/-- A running, idle bot (lines 29-35): call `get_next_order`; on a returned
order, mark it PROCESSING, stamp its start time and hold it.  On an empty
queue the bot sleeps (no state change). -/
def botAcquire (i : Nat) (s : ControllerState) : ControllerState :=
  if h : i < s.bots.length then
    if (s.bots.get ⟨i, h⟩).stop_event || (s.bots.get ⟨i, h⟩).stopped
        || (s.bots.get ⟨i, h⟩).current_order.isSome then s
    else
      match s.pending_orders with
      | [] => s
      | n :: rest =>
          { s with
            now := s.now + 1
            pending_orders := rest
            orders := updateOrder n
              (fun o => { o with
                          status := Status.PROCESSING
                          start_time := some s.now }) s.orders
            bots := s.bots.set i
              { s.bots.get ⟨i, h⟩ with current_order := some n } }
  else s

/-- A bot whose simulated task ran to the end (lines 45-48): mark the held
order COMPLETE, stamp its end time and release it. -/
def botComplete (i : Nat) (s : ControllerState) : ControllerState :=
  if h : i < s.bots.length then
    if (s.bots.get ⟨i, h⟩).stop_event || (s.bots.get ⟨i, h⟩).stopped then s
    else
      match (s.bots.get ⟨i, h⟩).current_order with
      | none => s
      | some n =>
          { s with
            now := s.now + 1
            orders := updateOrder n
              (fun o => { o with
                          status := Status.COMPLETE
                          end_time := some s.now }) s.orders
            bots := s.bots.set i
              { s.bots.get ⟨i, h⟩ with current_order := none } }
  else s

/-- The status filter of `view_orders` / `display_orders` (lines 113-144). -/
inductive Filter
  | ALL
  | PENDING
  | PROCESSING
  | COMPLETE
deriving DecidableEq, Repr

/-- Line 144: `filter_status == "ALL" or order.status == filter_status`. -/
def statusMatches : Filter → Status → Bool
  | Filter.ALL, _ => true
  | Filter.PENDING, st => st == Status.PENDING
  | Filter.PROCESSING, st => st == Status.PROCESSING
  | Filter.COMPLETE, st => st == Status.COMPLETE

/-- One row of the order table. `progress` is the integer percentage shown
for a PROCESSING order with a start time, `none` stands for the "-" cells,
and `waiting_time` is the whole-second waiting time of lines 146-157. -/
structure Row where
  order_number : Nat
  type : OrderType
  status : Status
  progress : Option Nat
  start_time : Option Nat
  end_time : Option Nat
  waiting_time : Int
deriving DecidableEq, Repr

/-- The per-order body of the `display_orders` loop (lines 145-188).
PENDING: waiting time counted up to now, no timestamps shown.  PROCESSING:
waiting time up to the start stamp, progress `min(elapsed / 10, 1)` rendered
as a percentage (`min (elapsed * 10) 100` of the whole-second clock).
COMPLETE: both stamps shown.  A PROCESSING or COMPLETE order with no start
stamp cannot arise (the source would raise on line 151); the model returns 0
there. -/
def rowOf (now : Nat) (o : Order) : Row :=
  match o.status with
  | Status.PENDING =>
      { order_number := o.order_number, type := o.type, status := o.status
        progress := none, start_time := none, end_time := none
        waiting_time := (now : Int) - (o.creation_time : Int) }
  | Status.PROCESSING =>
      { order_number := o.order_number, type := o.type, status := o.status
        progress :=
          match o.start_time with
          | some t => some (min ((now - t) * 10) 100)
          | none => none
        start_time := o.start_time, end_time := none
        waiting_time :=
          match o.start_time with
          | some t => (t : Int) - (o.creation_time : Int)
          | none => 0 }
  | Status.COMPLETE =>
      { order_number := o.order_number, type := o.type, status := o.status
        progress := none, start_time := o.start_time, end_time := o.end_time
        waiting_time :=
          match o.start_time with
          | some t => (t : Int) - (o.creation_time : Int)
          | none => 0 }

/-- `OrderController.display_orders` (lines 136-195): under the lock, walk
`orders` in list order, keep those matching the filter, and render each into
a row.  The early return of line 138-140 yields no rows.  The state is
returned alongside the rows to record the function's (absent) effect on it. -/
def display_orders (filt : Filter) (s : ControllerState) :
    ControllerState × List Row :=
  if s.orders = [] then (s, [])
  else
    (s, (s.orders.filter (fun o => statusMatches filt o.status)).map
          (rowOf s.now))

/-- One atomic effect on the shared controller state: a menu command
(`add_order`, `add_bot`, `remove_bot`, `shutdown`) or one of the two shared
effects of a bot's run loop. -/
inductive Step : ControllerState → ControllerState → Prop
  | addOrder (t : OrderType) (s : ControllerState) : Step s (add_order t s)
  | addBot (s : ControllerState) : Step s (add_bot s).1
  | removeBot (s : ControllerState) : Step s (remove_bot s).1
  | acquire (i : Nat) (s : ControllerState) : Step s (botAcquire i s)
  | complete (i : Nat) (s : ControllerState) : Step s (botComplete i s)
  | shutdownStep (s : ControllerState) : Step s (shutdown s)

/-- The states the program can reach from a fresh `OrderController`. -/
inductive Reachable : ControllerState → Prop
  | init : Reachable initialState
  | step {s s' : ControllerState} : Reachable s → Step s s' → Reachable s'

/-! ### Basic lemmas about the embedded list operations -/

theorem orderNums_updateOrder (n : Nat) (f : Order → Order) (l : List Order)
    (hf : ∀ o, (f o).order_number = o.order_number) :
    (updateOrder n f l).map (fun o => o.order_number)
      = l.map (fun o => o.order_number) := by
  unfold updateOrder
  rw [List.map_map]
  refine List.map_congr_left ?_
  intro o _
  by_cases h : o.order_number = n <;> simp [Function.comp, h, hf]

theorem mem_updateOrder_self {o : Order} {l : List Order} {n : Nat}
    (f : Order → Order) (ho : o ∈ l) (hn : o.order_number = n) :
    f o ∈ updateOrder n f l := by
  unfold updateOrder
  have h := List.mem_map_of_mem
    (fun o => if o.order_number = n then f o else o) ho
  simpa [hn] using h

theorem mem_updateOrder_other {o : Order} {l : List Order} {n : Nat}
    (f : Order → Order) (ho : o ∈ l) (hn : o.order_number ≠ n) :
    o ∈ updateOrder n f l := by
  unfold updateOrder
  have h := List.mem_map_of_mem
    (fun o => if o.order_number = n then f o else o) ho
  simpa [hn] using h

theorem of_mem_updateOrder {o' : Order} {l : List Order} {n : Nat}
    {f : Order → Order} (h : o' ∈ updateOrder n f l) :
    ∃ o ∈ l, (o.order_number = n ∧ o' = f o) ∨ (o.order_number ≠ n ∧ o' = o) := by
  unfold updateOrder at h
  rcases List.mem_map.mp h with ⟨o, ho, heq⟩
  refine ⟨o, ho, ?_⟩
  by_cases hn : o.order_number = n
  · exact Or.inl ⟨hn, by simp [hn] at heq; exact heq.symm⟩
  · exact Or.inr ⟨hn, by simp [hn] at heq; exact heq.symm⟩

theorem mem_insertAt (i x : Nat) (l : List Nat) (a : Nat) :
    a ∈ insertAt i x l ↔ a = x ∨ a ∈ l := by
  induction l generalizing i with
  | nil => cases i <;> simp [insertAt]
  | cons y l ih =>
    cases i with
    | zero => simp [insertAt]
    | succ i =>
      simp only [insertAt, List.mem_cons, ih i]
      tauto

theorem length_insertAt (i x : Nat) (l : List Nat) :
    (insertAt i x l).length = l.length + 1 := by
  induction l generalizing i with
  | nil => cases i <;> simp [insertAt]
  | cons y l ih =>
    cases i with
    | zero => simp [insertAt]
    | succ i => simp [insertAt, ih i]

theorem nodup_insertAt (i x : Nat) (l : List Nat) (hx : x ∉ l) (hl : l.Nodup) :
    (insertAt i x l).Nodup := by
  induction l generalizing i with
  | nil => cases i <;> simp [insertAt]
  | cons y l ih =>
    cases i with
    | zero =>
      refine List.nodup_cons.mpr ⟨hx, hl⟩
    | succ i =>
      rcases List.nodup_cons.mp hl with ⟨hy, hl2⟩
      have hx2 : x ∉ l := fun h => hx (List.mem_cons_of_mem _ h)
      have hxy : x ≠ y := fun h => hx (h ▸ List.mem_cons_self _ _)
      refine List.nodup_cons.mpr ⟨?_, ih i hx2 hl2⟩
      intro hy2
      rcases (mem_insertAt i x l y).mp hy2 with h | h
      · exact hxy h.symm
      · exact hy h

theorem insertAt_length_append (A B : List Nat) (x : Nat) :
    insertAt A.length x (A ++ B) = A ++ x :: B := by
  induction A with
  | nil => cases B <;> simp [insertAt]
  | cons a A ih => simp [insertAt, ih]

theorem find?_eq_some_of_unique {p : Order → Bool} {a : Order} :
    ∀ l : List Order, a ∈ l → p a = true → (∀ x ∈ l, p x = true → x = a) →
      l.find? p = some a := by
  intro l
  induction l with
  | nil => intro h; simp at h
  | cons y l ih =>
    intro ha hpa huniq
    by_cases hy : p y = true
    · have h : y = a := huniq y (List.mem_cons_self _ _) hy
      subst h
      rw [List.find?_cons_of_pos _ hy]
    · rcases List.mem_cons.mp ha with rfl | ha2
      · exact absurd hpa hy
      · rw [List.find?_cons_of_neg _ (by simpa using hy)]
        exact ih ha2 hpa (fun x hx => huniq x (List.mem_cons_of_mem _ hx))

/-! ### Concrete execution used by several claims: submit one normal order,
add a bot, let the bot pick the order up, and then either remove the bot
mid-task (`stateD`) or let it finish (`stateE`). -/

def stateA : ControllerState := add_order OrderType.normal initialState

def stateB : ControllerState := (add_bot stateA).1

def stateC : ControllerState := botAcquire 0 stateB

def stateD : ControllerState := (remove_bot stateC).1

def stateE : ControllerState := botComplete 0 stateC

theorem reachable_stateC : Reachable stateC :=
  Reachable.step
    (Reachable.step
      (Reachable.step Reachable.init (Step.addOrder OrderType.normal initialState))
      (Step.addBot stateA))
    (Step.acquire 0 stateB)

theorem reachable_stateE : Reachable stateE :=
  Reachable.step reachable_stateC (Step.complete 0 stateC)

/-- Claim C1: in the source, removing the worker that holds an in-progress
order resets the order to PENDING and clears its start time, but does NOT
re-insert it into the pending queue: after `remove_bot` returns, the queue
is empty and the order is orphaned, contradicting the claim that it sits at
the front of `pendingQueue`.  Concretely: submit order 1, add a bot, the bot
starts processing order 1, then `remove_bot` runs before the task ends. -/
theorem c1_remove_bot_orphans_order :
    (findOrder stateC 1).map Order.status = some Status.PROCESSING ∧
    stateC.bots.map BotState.current_order = [some 1] ∧
    (findOrder stateD 1).map Order.status = some Status.PENDING ∧
    (findOrder stateD 1).map Order.start_time = some none ∧
    stateD.pending_orders = [] ∧
    1 ∉ stateD.pending_orders := by decide

/-- Claim C5 (counterexample): with one worker in the pool (worker id 1),
`remove_bot` returns `none`, not the removed worker's id — the source's
`remove_bot` has no return value on the non-empty path. -/
theorem c5_remove_bot_returns_none :
    stateB.bots.map BotState.bot_id = [1] ∧
    (remove_bot stateB).2 = none ∧
    (remove_bot stateB).2 ≠ some 1 := by decide

/-- Claim C5 (amended): `remove_bot` on an empty pool is a no-op returning
`none`; on a non-empty pool it removes the most recently added worker (LIFO)
but still returns `none`. -/
theorem c5_remove_bot_lifo_returns_none (s : ControllerState) :
    (s.bots = [] → remove_bot s = (s, none)) ∧
    (s.bots ≠ [] →
      (remove_bot s).1.bots = s.bots.dropLast ∧ (remove_bot s).2 = none) := by
  rcases hb : s.bots.getLast? with _ | b
  · have he : s.bots = [] := List.getLast?_eq_none_iff.mp hb
    constructor
    · intro _
      simp [remove_bot, hb]
    · intro h
      exact absurd he h
  · constructor
    · intro h
      rw [h] at hb
      simp at hb
    · intro _
      simp [remove_bot, hb]

/-- Claim C7: `get_next_order` pops and returns the head of the pending
queue when it is non-empty, and returns `none` leaving the state unchanged
when it is empty. -/
theorem c7_get_next_order_pops_head (s : ControllerState) :
    (s.pending_orders = [] → get_next_order s = (s, none)) ∧
    ∀ n rest, s.pending_orders = n :: rest →
      get_next_order s = ({ s with pending_orders := rest }, some n) := by
  constructor
  · intro h
    simp [get_next_order, h]
  · intro n rest h
    simp [get_next_order, h]

/-- Claim C8: `display_orders` is a pure read for every filter: the state —
the orders list, the pending queue, the worker pool, the id counters and
every order's fields — is returned unchanged. -/
theorem c8_display_orders_pure (filt : Filter) (s : ControllerState) :
    (display_orders filt s).1 = s := by
  unfold display_orders
  split <;> rfl

/-! ### Shutdown lemmas -/

theorem stopBots_all_stopped :
    ∀ (bs : List BotState) (os : List Order), ∀ b ∈ (stopBots bs os).1,
      b.stop_event = true ∧ b.current_order = none ∧ b.stopped = true := by
  intro bs
  induction bs with
  | nil =>
    intro os b hb
    simp [stopBots] at hb
  | cons b0 rest ih =>
    intro os b hb
    simp only [stopBots, List.mem_cons] at hb
    rcases hb with rfl | hb
    · exact ⟨rfl, rfl, rfl⟩
    · exact ih _ b hb

theorem stopBots_of_all_stopped :
    ∀ (bs : List BotState) (os : List Order),
      (∀ b ∈ bs, b.stop_event = true ∧ b.current_order = none ∧ b.stopped = true) →
      stopBots bs os = (bs, os) := by
  intro bs
  induction bs with
  | nil => intro os _; rfl
  | cons b0 rest ih =>
    intro os h
    obtain ⟨h1, h2, h3⟩ := h b0 (List.mem_cons_self _ _)
    have hb0 :
        { b0 with stop_event := true, current_order := none, stopped := true }
          = b0 := by
      cases b0
      simp_all
    have hrest := ih os (fun b hb => h b (List.mem_cons_of_mem _ hb))
    simp [stopBots, h2, cancelOrder, hb0, hrest]

/-- Claim C6: `shutdown` is idempotent — a second call leaves the state of a
first call unchanged — and after it every worker of the pool is stopped. -/
theorem c6_shutdown_idempotent (s : ControllerState) :
    shutdown (shutdown s) = shutdown s ∧
    ∀ b ∈ (shutdown s).bots, b.stopped = true := by
  constructor
  · have h := stopBots_of_all_stopped (stopBots s.bots s.orders).1
      (stopBots s.bots s.orders).2 (stopBots_all_stopped s.bots s.orders)
    simp [shutdown, h]
  · intro b hb
    exact (stopBots_all_stopped s.bots s.orders b hb).2.2

/-! ### Interleaving model of `remove_bot` against one idle bot (claim C9).

`remove_bot` (lines 104-111) runs `bot.stop()` — which `join`s the bot
thread (line 56) — *inside* `with self.order_lock`.  The bot's run loop
(lines 29-30, 49-50), when idle, checks its stop event and then calls
`get_next_order`, which acquires the same lock (line 88).  The model below
is the product of the two thread's program counters with the lock and the
stop event, with one transition per atomic action of the source. -/

namespace RemoveBotRace

/-- Program counter of the idle bot's run loop: about to evaluate the
`while not self.stop_event.is_set()` condition (line 29); blocked acquiring
the controller lock inside `get_next_order` (line 88); inside the locked
region of `get_next_order`; sleeping after an empty poll (line 50); or the
thread has returned. -/
inductive BotPC
  | loopCheck
  | wantLock
  | inGet
  | sleeping
  | stopped
deriving DecidableEq, Repr, Fintype

/-- Program counter of the main thread running `remove_bot`: about to enter
`with self.order_lock` (line 105); holding the lock, about to pop the bot
and set its stop event (lines 109, 53); blocked in `self.join()` (line 56)
still holding the lock; or returned. -/
inductive MainPC
  | start
  | locked
  | joining
  | done
deriving DecidableEq, Repr, Fintype

/-- Joint state of the two threads, the controller lock and the stop event. -/
structure RState where
  bot : BotPC
  main : MainPC
  lockHeldByMain : Bool
  lockHeldByBot : Bool
  stopEvent : Bool
deriving DecidableEq, Repr, Fintype

def rInit : RState :=
  { bot := BotPC.loopCheck, main := MainPC.start
    lockHeldByMain := false, lockHeldByBot := false, stopEvent := false }

/-- One interleaving step: each disjunct is one atomic action of one thread.
The bot exits its loop when it observes the stop event (line 29), otherwise
it enters `get_next_order` and must acquire the lock (line 88), finds the
queue empty, releases the lock and sleeps (lines 92-93, 50), and wakes back
to the loop condition.  The main thread acquires the lock (line 105), pops
the bot and sets the stop event (lines 109, 53), and finishes its `join`
only once the bot thread has returned (line 56). -/
def rstep (s t : RState) : Bool :=
  (s.bot == BotPC.loopCheck && s.stopEvent && t == { s with bot := BotPC.stopped }) ||
  (s.bot == BotPC.loopCheck && !s.stopEvent && t == { s with bot := BotPC.wantLock }) ||
  (s.bot == BotPC.wantLock && !s.lockHeldByMain && !s.lockHeldByBot &&
    t == { s with bot := BotPC.inGet, lockHeldByBot := true }) ||
  (s.bot == BotPC.inGet &&
    t == { s with bot := BotPC.sleeping, lockHeldByBot := false }) ||
  (s.bot == BotPC.sleeping && t == { s with bot := BotPC.loopCheck }) ||
  (s.main == MainPC.start && !s.lockHeldByMain && !s.lockHeldByBot &&
    t == { s with main := MainPC.locked, lockHeldByMain := true }) ||
  (s.main == MainPC.locked &&
    t == { s with main := MainPC.joining, stopEvent := true }) ||
  (s.main == MainPC.joining && s.bot == BotPC.stopped &&
    t == { s with main := MainPC.done, lockHeldByMain := false })

/-- The reachable stuck configuration: the bot is blocked on the lock inside
`get_next_order`, the main thread holds the lock and is blocked in `join`. -/
def deadState : RState :=
  { bot := BotPC.wantLock, main := MainPC.joining
    lockHeldByMain := true, lockHeldByBot := false, stopEvent := true }

def rMid1 : RState :=
  { rInit with main := MainPC.locked, lockHeldByMain := true }

def rMid2 : RState :=
  { rMid1 with bot := BotPC.wantLock }

end RemoveBotRace

open RemoveBotRace in
set_option maxRecDepth 4000 in
/-- Claim C9: refuted by the source.  `remove_bot` holds the controller lock
across the blocking `join` of the removed bot, and the interleaving
main-acquires-lock, bot-passes-its-stop-check, main-sets-stop-and-joins
reaches a state in which no thread can take a step: the bot waits forever
for the lock and never acquires it, while the lock is held by a thread in a
blocking wait — a deadlock. -/
theorem c9_remove_bot_lock_deadlock :
    rstep rInit rMid1 = true ∧
    rstep rMid1 rMid2 = true ∧
    rstep rMid2 deadState = true ∧
    (∀ t : RState, rstep deadState t = false) ∧
    deadState.lockHeldByMain = true ∧
    deadState.main = MainPC.joining ∧
    deadState.bot = BotPC.wantLock ∧
    deadState.bot ≠ BotPC.stopped := by decide

/-! ### Submission-only executions (claims C2 and C3) -/

/-- A sequence of `add_order` calls from a fresh controller. -/
def submitAll (ts : List OrderType) : ControllerState :=
  ts.foldl (fun s t => add_order t s) initialState

/-- The numbers of the VIP orders, in creation order. -/
def vipNums (s : ControllerState) : List Nat :=
  (s.orders.filter (fun o => o.type == OrderType.vip)).map
    (fun o => o.order_number)

/-- The numbers of the normal orders, in creation order. -/
def normalNums (s : ControllerState) : List Nat :=
  (s.orders.filter (fun o => o.type == OrderType.normal)).map
    (fun o => o.order_number)

theorem findOrder_of_mem {s : ControllerState} {o : Order}
    (hnd : (s.orders.map (fun o => o.order_number)).Nodup) (ho : o ∈ s.orders) :
    findOrder s o.order_number = some o := by
  unfold findOrder
  refine find?_eq_some_of_unique s.orders ho (by simp) ?_
  intro x hx hpx
  exact List.inj_on_of_nodup_map hnd hx ho (by simpa using hpx)

theorem isVipAt_eq {s : ControllerState} {o : Order}
    (hnd : (s.orders.map (fun o => o.order_number)).Nodup) (ho : o ∈ s.orders) :
    isVipAt s o.order_number = (o.type == OrderType.vip) := by
  unfold isVipAt
  rw [findOrder_of_mem hnd ho]

theorem vipRunLength_append (s : ControllerState) (A B : List Nat)
    (hA : ∀ n ∈ A, isVipAt s n = true) :
    vipRunLength s (A ++ B) = A.length + vipRunLength s B := by
  induction A with
  | nil => simp
  | cons a A ih =>
    have ha : isVipAt s a = true := hA a (List.mem_cons_self _ _)
    have h := ih (fun n hn => hA n (List.mem_cons_of_mem _ hn))
    rw [List.cons_append]
    have e1 : vipRunLength s (a :: (A ++ B)) = vipRunLength s (A ++ B) + 1 := by
      simp [vipRunLength, ha]
    rw [e1, h, List.length_cons]
    omega

theorem vipRunLength_eq_zero (s : ControllerState) (B : List Nat)
    (hB : ∀ n ∈ B, isVipAt s n = false) :
    vipRunLength s B = 0 := by
  cases B with
  | nil => rfl
  | cons b B => simp [vipRunLength, hB b (List.mem_cons_self _ _)]

/-- The invariant maintained by `add_order` alone: the order counter equals
the number of orders created, the numbers are 1..N in creation order, and
the pending queue is exactly the VIP orders followed by the normal orders,
each class in creation order. -/
structure SubShape (s : ControllerState) : Prop where
  counter : s.order_number = s.orders.length
  ids : s.orders.map (fun o => o.order_number)
          = List.range' 1 s.orders.length
  shape : s.pending_orders = vipNums s ++ normalNums s

theorem subShape_add_order (t : OrderType) (s : ControllerState)
    (h : SubShape s) : SubShape (add_order t s) := by
  obtain ⟨hc, hi, hs⟩ := h
  have hnd : (s.orders.map (fun o => o.order_number)).Nodup := by
    rw [hi]
    exact List.nodup_range' _ _
  have hVip : ∀ n ∈ vipNums s, isVipAt s n = true := by
    intro n hn
    rcases List.mem_map.mp hn with ⟨o, ho, rfl⟩
    rcases List.mem_filter.mp ho with ⟨ho1, ho2⟩
    rw [isVipAt_eq hnd ho1]
    exact ho2
  have hNorm : ∀ n ∈ normalNums s, isVipAt s n = false := by
    intro n hn
    rcases List.mem_map.mp hn with ⟨o, ho, rfl⟩
    rcases List.mem_filter.mp ho with ⟨ho1, ho2⟩
    rw [isVipAt_eq hnd ho1]
    have : o.type = OrderType.normal := by simpa using ho2
    simp [this]
  have hrun : vipRunLength s s.pending_orders = (vipNums s).length := by
    rw [hs, vipRunLength_append s _ _ hVip, vipRunLength_eq_zero s _ hNorm]
    exact Nat.add_zero _
  refine ⟨?_, ?_, ?_⟩
  · simp [add_order, hc]
  · simp only [add_order, List.map_append, hi, List.length_append, hc]
    simp [List.range'_concat, Nat.add_comm]
  · cases t with
    | vip =>
      have hv : vipNums (add_order OrderType.vip s)
          = vipNums s ++ [s.order_number + 1] := by
        simp [add_order, vipNums, List.filter_append, List.filter_cons]
      have hn2 : normalNums (add_order OrderType.vip s) = normalNums s := by
        simp [add_order, normalNums, List.filter_append, List.filter_cons]
      have hp : (add_order OrderType.vip s).pending_orders
          = insertAt (vipRunLength s s.pending_orders) (s.order_number + 1)
              s.pending_orders := by
        simp [add_order]
      rw [hp, hrun, hs, insertAt_length_append, hv, hn2]
      simp
    | normal =>
      have hv : vipNums (add_order OrderType.normal s) = vipNums s := by
        simp [add_order, vipNums, List.filter_append, List.filter_cons]
      have hn2 : normalNums (add_order OrderType.normal s)
          = normalNums s ++ [s.order_number + 1] := by
        simp [add_order, normalNums, List.filter_append, List.filter_cons]
      have hp : (add_order OrderType.normal s).pending_orders
          = s.pending_orders ++ [s.order_number + 1] := by
        simp [add_order]
      rw [hp, hs, hv, hn2, List.append_assoc]

theorem subShape_submitAll (ts : List OrderType) : SubShape (submitAll ts) := by
  have key : ∀ (us : List OrderType) (s : ControllerState), SubShape s →
      SubShape (us.foldl (fun s t => add_order t s) s) := by
    intro us
    induction us with
    | nil => intro s h; exact h
    | cons t us ih =>
      intro s h
      exact ih _ (subShape_add_order t s h)
  exact key ts initialState ⟨rfl, rfl, rfl⟩

/-- Claim C2: after any sequence of submissions from a fresh controller, the
pending queue is exactly the VIP orders (in submission order) followed by
the normal orders (in submission order); in particular submitting
NORMAL, VIP, NORMAL yields the queue [2, 1, 3]. -/
theorem c2_pending_vip_before_normal :
    (∀ ts : List OrderType,
      (submitAll ts).pending_orders
        = vipNums (submitAll ts) ++ normalNums (submitAll ts)) ∧
    (submitAll [OrderType.normal, OrderType.vip, OrderType.normal]).pending_orders
      = [2, 1, 3] := by
  exact ⟨fun ts => (subShape_submitAll ts).shape, by decide⟩

theorem foldl_add_order_length (ts : List OrderType) :
    ∀ s : ControllerState,
      (ts.foldl (fun s t => add_order t s) s).orders.length
        = s.orders.length + ts.length := by
  induction ts with
  | nil => intro s; simp
  | cons t ts ih =>
    intro s
    rw [List.foldl_cons, ih]
    simp [add_order]
    omega

theorem rowOf_order_number (now : Nat) (o : Order) :
    (rowOf now o).order_number = o.order_number := by
  rcases o with ⟨num, ty, st, c, t0, t1⟩
  cases st <;> rfl

theorem display_all_rows (s : ControllerState) :
    (display_orders Filter.ALL s).2 = s.orders.map (rowOf s.now) := by
  unfold display_orders
  split
  case isTrue h => simp [h]
  case isFalse h => simp [statusMatches]

/-- Claim C3: every `add_order` succeeds and grows the pending queue by one,
and after N submissions the ALL query returns exactly N rows, in creation
order, with the unique strictly increasing numbers 1..N. -/
theorem c3_query_all_returns_created_orders :
    (∀ (t : OrderType) (s : ControllerState),
      (add_order t s).pending_orders.length = s.pending_orders.length + 1) ∧
    ∀ ts : List OrderType,
      ((display_orders Filter.ALL (submitAll ts)).2).length = ts.length ∧
      ((display_orders Filter.ALL (submitAll ts)).2).map Row.order_number
        = List.range' 1 ts.length ∧
      (((display_orders Filter.ALL (submitAll ts)).2).map Row.order_number).Nodup ∧
      List.Pairwise (fun a b => a < b)
        (((display_orders Filter.ALL (submitAll ts)).2).map Row.order_number) := by
  constructor
  · intro t s
    by_cases h : t = OrderType.vip <;> simp [add_order, h, length_insertAt]
  · intro ts
    have hlen : (submitAll ts).orders.length = ts.length := by
      have h := foldl_add_order_length ts initialState
      simpa [initialState] using h
    have hids := (subShape_submitAll ts).ids
    have hrows : ((display_orders Filter.ALL (submitAll ts)).2).map Row.order_number
        = List.range' 1 ts.length := by
      rw [display_all_rows, List.map_map]
      have hcongr : ((submitAll ts).orders.map
            (Row.order_number ∘ rowOf (submitAll ts).now))
          = (submitAll ts).orders.map (fun o => o.order_number) :=
        List.map_congr_left (fun o _ => by
          simp [Function.comp, rowOf_order_number])
      rw [hcongr, hids, hlen]
    refine ⟨?_, hrows, ?_, ?_⟩
    · rw [display_all_rows]
      simp [hlen]
    · rw [hrows]
      exact List.nodup_range' _ _
    · rw [hrows]
      exact List.pairwise_lt_range' _ _

/-! ### The reachable-state invariant (claims C4 and C10) -/

/-- Per-order invariant: the timestamp stamps are ordered by the logical
clock and the optional fields agree with the status. -/
structure OrderInv (now : Nat) (o : Order) : Prop where
  created_lt : o.creation_time < now
  start_bounds : ∀ t, o.start_time = some t → o.creation_time < t ∧ t < now
  end_complete : ∀ u, o.end_time = some u → o.status = Status.COMPLETE
  pending_clear : o.status = Status.PENDING →
    o.start_time = none ∧ o.end_time = none
  processing_shape : o.status = Status.PROCESSING →
    o.end_time = none ∧ ∃ t, o.start_time = some t
  complete_shape : o.status = Status.COMPLETE →
    ∃ t u, o.start_time = some t ∧ o.end_time = some u ∧ t < u

/-- Two bots never hold the same order. -/
def HeldRel (b b2 : BotState) : Prop :=
  ∀ n, b.current_order = some n → b2.current_order ≠ some n

/-- The controller invariant: order numbers are 1..N in creation order, per
order the `OrderInv` facts hold, queued orders exist and are PENDING, the
queue has no duplicates, held orders exist and are PROCESSING, and no two
bots hold the same order. -/
structure Inv (s : ControllerState) : Prop where
  counter : s.order_number = s.orders.length
  ids : s.orders.map (fun o => o.order_number)
          = List.range' 1 s.orders.length
  orderInv : ∀ o ∈ s.orders, OrderInv s.now o
  pendingMem : ∀ n ∈ s.pending_orders,
    ∃ o ∈ s.orders, o.order_number = n ∧ o.status = Status.PENDING
  pendingNodup : s.pending_orders.Nodup
  held : ∀ b ∈ s.bots, ∀ n, b.current_order = some n →
    ∃ o ∈ s.orders, o.order_number = n ∧ o.status = Status.PROCESSING
  heldDistinct : List.Pairwise HeldRel s.bots

theorem OrderInv.mono {now now2 : Nat} {o : Order} (h : now ≤ now2)
    (hI : OrderInv now o) : OrderInv now2 o where
  created_lt := lt_of_lt_of_le hI.created_lt h
  start_bounds := fun t ht =>
    ⟨(hI.start_bounds t ht).1, lt_of_lt_of_le (hI.start_bounds t ht).2 h⟩
  end_complete := hI.end_complete
  pending_clear := hI.pending_clear
  processing_shape := hI.processing_shape
  complete_shape := hI.complete_shape

theorem Inv.numsNodup {s : ControllerState} (hI : Inv s) :
    (s.orders.map (fun o => o.order_number)).Nodup := by
  rw [hI.ids]
  exact List.nodup_range' _ _

theorem Inv.num_inj {s : ControllerState} (hI : Inv s) {o o2 : Order}
    (h1 : o ∈ s.orders) (h2 : o2 ∈ s.orders)
    (h : o.order_number = o2.order_number) : o = o2 :=
  List.inj_on_of_nodup_map hI.numsNodup h1 h2 h

theorem Inv.num_le {s : ControllerState} (hI : Inv s) {o : Order}
    (ho : o ∈ s.orders) :
    1 ≤ o.order_number ∧ o.order_number ≤ s.orders.length := by
  have h : o.order_number ∈ s.orders.map (fun o => o.order_number) :=
    List.mem_map_of_mem _ ho
  rw [hI.ids] at h
  have h2 := List.mem_range'_1.mp h
  omega

/-- From `Pairwise HeldRel`, two distinct positions never hold the same
order, in either index order. -/
theorem heldRel_both {l : List BotState} (hp : List.Pairwise HeldRel l)
    {j k : Nat} (hj : j < l.length) (hk : k < l.length) (hjk : j ≠ k)
    (n : Nat) (h : (l.get ⟨j, hj⟩).current_order = some n) :
    (l.get ⟨k, hk⟩).current_order ≠ some n := by
  rw [List.pairwise_iff_getElem] at hp
  rcases Nat.lt_or_ge j k with hlt | hge
  · exact (hp j k hj hk hlt) n (by simpa using h)
  · have hlt : k < j := by omega
    intro hc
    exact (hp k j hk hj hlt) n (by simpa using hc) (by simpa using h)

theorem inv_initialState : Inv initialState := by
  refine ⟨rfl, rfl, ?_, ?_, ?_, ?_, ?_⟩ <;> simp [initialState]

/-! Component lemmas for the record-building operations. -/

theorem add_order_orders (t : OrderType) (s : ControllerState) :
    (add_order t s).orders = s.orders ++
      [{ order_number := s.order_number + 1, type := t
         status := Status.PENDING, creation_time := s.now
         start_time := none, end_time := none }] := by
  simp [add_order]

theorem add_order_now (t : OrderType) (s : ControllerState) :
    (add_order t s).now = s.now + 1 := by
  simp [add_order]

theorem add_order_bots (t : OrderType) (s : ControllerState) :
    (add_order t s).bots = s.bots := by
  simp [add_order]

theorem add_order_counter (t : OrderType) (s : ControllerState) :
    (add_order t s).order_number = s.order_number + 1 := by
  simp [add_order]

theorem add_order_pending_vip (s : ControllerState) :
    (add_order OrderType.vip s).pending_orders
      = insertAt (vipRunLength s s.pending_orders) (s.order_number + 1)
          s.pending_orders := by
  simp [add_order]

theorem add_order_pending_normal (s : ControllerState) :
    (add_order OrderType.normal s).pending_orders
      = s.pending_orders ++ [s.order_number + 1] := by
  simp [add_order]

theorem add_bot_state (s : ControllerState) :
    (add_bot s).1 = { s with
      bots := s.bots ++
        [{ bot_id := s.bot_id_counter, stop_event := false
           current_order := none, stopped := false }]
      bot_id_counter := s.bot_id_counter + 1 } := by
  simp [add_bot]

theorem inv_add_order (t : OrderType) (s : ControllerState) (hI : Inv s) :
    Inv (add_order t s) := by
  have hc := hI.counter
  have hpendlt : ∀ n ∈ s.pending_orders, n < s.order_number + 1 := by
    intro n hn
    rcases hI.pendingMem n hn with ⟨o, ho, rfl, _⟩
    have h2 := hI.num_le ho
    omega
  have hpendnew : (s.order_number + 1) ∉ s.pending_orders := by
    intro h
    exact absurd (hpendlt _ h) (lt_irrefl _)
  refine ⟨?_, ?_, ?_, ?_, ?_, ?_, ?_⟩
  · simp [add_order, hc]
  · simp only [add_order, List.map_append, hI.ids, List.length_append, hc]
    simp [List.range'_concat, Nat.add_comm]
  · intro o ho
    rw [add_order_orders] at ho
    rw [add_order_now]
    rcases List.mem_append.mp ho with h | h
    · exact (hI.orderInv o h).mono (Nat.le_succ _)
    · rw [List.mem_singleton] at h
      subst h
      exact ⟨Nat.lt_succ_self _, by simp, by simp, fun _ => ⟨rfl, rfl⟩,
        by simp, by simp⟩
  · intro n hn
    have hmem : n = s.order_number + 1 ∨ n ∈ s.pending_orders := by
      cases t with
      | vip =>
        rw [add_order_pending_vip] at hn
        exact (mem_insertAt _ _ _ n).mp hn
      | normal =>
        rw [add_order_pending_normal] at hn
        rcases List.mem_append.mp hn with h | h
        · exact Or.inr h
        · exact Or.inl (by simpa using h)
    rw [add_order_orders]
    rcases hmem with rfl | h
    · exact ⟨_, List.mem_append_right _ (List.mem_singleton_self _), rfl, rfl⟩
    · rcases hI.pendingMem n h with ⟨o, ho, hnum, hst⟩
      exact ⟨o, List.mem_append_left _ ho, hnum, hst⟩
  · cases t with
    | vip =>
      rw [add_order_pending_vip]
      exact nodup_insertAt _ _ _ hpendnew hI.pendingNodup
    | normal =>
      rw [add_order_pending_normal]
      exact hI.pendingNodup.append (by simp)
        (List.disjoint_singleton.mpr hpendnew)
  · intro b hb n hcur
    rw [add_order_bots] at hb
    rcases hI.held b hb n hcur with ⟨o, ho, hnum, hst⟩
    rw [add_order_orders]
    exact ⟨o, List.mem_append_left _ ho, hnum, hst⟩
  · rw [add_order_bots]
    exact hI.heldDistinct

theorem inv_add_bot (s : ControllerState) (hI : Inv s) : Inv (add_bot s).1 := by
  rw [add_bot_state]
  refine ⟨hI.counter, hI.ids, hI.orderInv, hI.pendingMem, hI.pendingNodup,
    ?_, ?_⟩
  · intro b hb n hcur
    rcases List.mem_append.mp hb with h | h
    · exact hI.held b h n hcur
    · rw [List.mem_singleton] at h
      subst h
      simp at hcur
  · refine List.pairwise_append.mpr ⟨hI.heldDistinct, by simp, ?_⟩
    intro a _ b hb
    rw [List.mem_singleton] at hb
    subst hb
    intro n _ hc
    simp at hc

/-- Resetting a PROCESSING order back to PENDING with its start time cleared
(the cancellation branch, lines 40-41) keeps the per-order invariant. -/
theorem OrderInv.reset {now : Nat} {o : Order} (h : OrderInv now o)
    (hp : o.status = Status.PROCESSING) :
    OrderInv now { o with status := Status.PENDING, start_time := none } := by
  obtain ⟨hend, _⟩ := h.processing_shape hp
  refine ⟨h.created_lt, by simp, ?_, fun _ => ⟨rfl, hend⟩, by simp, by simp⟩
  intro u hu
  rw [show ({ o with status := Status.PENDING, start_time := none } :
      Order).end_time = o.end_time from rfl, hend] at hu
  cases hu

/-- A PENDING order marked PROCESSING with its start time freshly stamped
(lines 33-34) keeps the per-order invariant under the advanced clock. -/
theorem OrderInv.startProcessing {now : Nat} {o : Order} (h : OrderInv now o)
    (hp : o.status = Status.PENDING) :
    OrderInv (now + 1)
      { o with status := Status.PROCESSING, start_time := some now } := by
  obtain ⟨hst, hend⟩ := h.pending_clear hp
  refine ⟨Nat.lt_succ_of_lt h.created_lt, ?_, ?_, by simp, ?_, by simp⟩
  · intro t ht
    have he : now = t := by
      rw [show ({ o with status := Status.PROCESSING, start_time := some now } :
          Order).start_time = some now from rfl] at ht
      exact Option.some.inj ht
    subst he
    exact ⟨h.created_lt, Nat.lt_succ_self _⟩
  · intro u hu
    rw [show ({ o with status := Status.PROCESSING, start_time := some now } :
        Order).end_time = o.end_time from rfl, hend] at hu
    cases hu
  · intro _
    exact ⟨hend, now, rfl⟩

/-- A PROCESSING order marked COMPLETE with its end time freshly stamped
(lines 45-46) keeps the per-order invariant under the advanced clock. -/
theorem OrderInv.finish {now : Nat} {o : Order} (h : OrderInv now o)
    (hp : o.status = Status.PROCESSING) :
    OrderInv (now + 1)
      { o with status := Status.COMPLETE, end_time := some now } := by
  obtain ⟨hend, t, hst⟩ := h.processing_shape hp
  have hb := h.start_bounds t hst
  refine ⟨Nat.lt_succ_of_lt h.created_lt, ?_, fun u _ => rfl, by simp, by simp, ?_⟩
  · intro t2 ht2
    rw [show ({ o with status := Status.COMPLETE, end_time := some now } :
        Order).start_time = o.start_time from rfl] at ht2
    obtain ⟨h1, h2⟩ := h.start_bounds t2 ht2
    exact ⟨h1, by omega⟩
  · intro _
    exact ⟨t, now, hst, rfl, hb.2⟩

theorem inv_remove_bot (s : ControllerState) (hI : Inv s) :
    Inv (remove_bot s).1 := by
  rcases hb : s.bots.getLast? with _ | b
  · simp only [remove_bot, hb]
    exact hI
  · have hne : s.bots ≠ [] := by
      intro h
      rw [h] at hb
      simp at hb
    have hbval : b = s.bots.getLast hne := by
      have h1 := List.getLast?_eq_getLast_of_ne_nil hne
      rw [hb] at h1
      exact Option.some.inj h1
    have hbmem : b ∈ s.bots := hbval ▸ List.getLast_mem hne
    have hsplit : s.bots.dropLast ++ [b] = s.bots := by
      rw [hbval]
      exact List.dropLast_append_getLast hne
    have hsubset : ∀ b2 ∈ s.bots.dropLast, b2 ∈ s.bots :=
      fun b2 h2 => (List.dropLast_sublist s.bots).subset h2
    have hrel : ∀ b2 ∈ s.bots.dropLast, HeldRel b2 b := by
      have hp := hI.heldDistinct
      rw [← hsplit] at hp
      have h2 := List.pairwise_append.mp hp
      intro b2 hmem
      exact h2.2.2 b2 hmem b (List.mem_singleton_self _)
    have hpair : List.Pairwise HeldRel s.bots.dropLast :=
      List.Pairwise.sublist (List.dropLast_sublist s.bots) hI.heldDistinct
    cases hcur : b.current_order with
    | none =>
      simp only [remove_bot, hb, hcur, cancelOrder]
      refine ⟨hI.counter, hI.ids, hI.orderInv, hI.pendingMem, hI.pendingNodup,
        ?_, hpair⟩
      intro b2 h2 m hc
      exact hI.held b2 (hsubset b2 h2) m hc
    | some n =>
      rcases hI.held b hbmem n hcur with ⟨o1, honm, honn, honp⟩
      simp only [remove_bot, hb, hcur, cancelOrder]
      refine ⟨?_, ?_, ?_, ?_, hI.pendingNodup, ?_, hpair⟩
      · simp [updateOrder, hI.counter]
      · have hmap := orderNums_updateOrder n
          (fun o => { o with status := Status.PENDING, start_time := none })
          s.orders (fun o => rfl)
        have hlen : (updateOrder n
            (fun o => { o with status := Status.PENDING, start_time := none })
            s.orders).length = s.orders.length := by
          simp [updateOrder]
        dsimp only
        rw [hmap, hlen, hI.ids]
      · intro o2 ho2
        rcases of_mem_updateOrder ho2 with ⟨o, hom, hcase⟩
        rcases hcase with ⟨hnum, rfl⟩ | ⟨_, heq2⟩
        · have he : o = o1 := hI.num_inj hom honm (by rw [hnum, honn])
          have hproc : o.status = Status.PROCESSING := by rw [he, honp]
          exact (hI.orderInv o hom).reset hproc
        · rw [heq2]
          exact hI.orderInv o hom
      · intro k hk
        rcases hI.pendingMem k hk with ⟨ok, hokm, hokn, hokp⟩
        have hkne : ok.order_number ≠ n := by
          intro he
          have h3 : ok = o1 := hI.num_inj hokm honm (by rw [he, honn])
          rw [h3, honp] at hokp
          cases hokp
        exact ⟨ok, mem_updateOrder_other _ hokm hkne, hokn, hokp⟩
      · intro b2 h2 m hc
        rcases hI.held b2 (hsubset b2 h2) m hc with ⟨om, homm, homn, homp⟩
        have hmn : m ≠ n := by
          intro he
          subst he
          exact (hrel b2 h2) m hc hcur
        refine ⟨om, mem_updateOrder_other _ homm (by rw [homn]; exact hmn),
          homn, homp⟩

/-- The members of `l.set i b` are `b` (when the index is in range) or the
elements of `l` at positions other than `i`. -/
theorem mem_set_cases {α : Type u} {a b : α} :
    ∀ (l : List α) (i : Nat), a ∈ l.set i b →
      a = b ∨ ∃ j, ∃ hj : j < l.length, j ≠ i ∧ l.get ⟨j, hj⟩ = a := by
  intro l
  induction l with
  | nil =>
    intro i h
    simp at h
  | cons x l ih =>
    intro i h
    cases i with
    | zero =>
      rcases List.mem_cons.mp h with rfl | h2
      · exact Or.inl rfl
      · rcases List.get_of_mem h2 with ⟨⟨j, hj⟩, hget⟩
        refine Or.inr ⟨j + 1, by simpa using Nat.succ_lt_succ hj, by omega, ?_⟩
        simpa using hget
    | succ i =>
      rcases List.mem_cons.mp h with rfl | h2
      · exact Or.inr ⟨0, by simp, by omega, rfl⟩
      · rcases ih i h2 with h3 | ⟨j, hj, hji, hget⟩
        · exact Or.inl h3
        · refine Or.inr ⟨j + 1, by simpa using Nat.succ_lt_succ hj, by omega, ?_⟩
          simpa using hget

/-- Updating one slot of the pool keeps `HeldRel` pairwise, provided the new
bot's held order is held by no bot of the pool. -/
theorem pairwise_heldRel_set {b : BotState} :
    ∀ (l : List BotState) (i : Nat), List.Pairwise HeldRel l →
      (∀ b2 ∈ l, ∀ n, b.current_order = some n → b2.current_order ≠ some n) →
      List.Pairwise HeldRel (l.set i b) := by
  intro l
  induction l with
  | nil =>
    intro i hp _
    exact hp
  | cons x l ih =>
    intro i hp hb
    rcases List.pairwise_cons.mp hp with ⟨hx, hl⟩
    cases i with
    | zero =>
      refine List.pairwise_cons.mpr ⟨?_, hl⟩
      intro b2 hb2 m hbm
      exact hb b2 (List.mem_cons_of_mem _ hb2) m hbm
    | succ i =>
      refine List.pairwise_cons.mpr
        ⟨?_, ih i hl (fun b2 h2 => hb b2 (List.mem_cons_of_mem _ h2))⟩
      intro b2 hb2
      rcases mem_set_cases l i hb2 with rfl | ⟨j, hj, _, hget⟩
      · intro m hxm hbm
        exact hb x (List.mem_cons_self _ _) m hbm hxm
      · rw [← hget]
        exact hx _ (List.get_mem _ _ _)

theorem inv_botAcquire (i : Nat) (s : ControllerState) (hI : Inv s) :
    Inv (botAcquire i s) := by
  unfold botAcquire
  split
  case isFalse => exact hI
  case isTrue hlen =>
    split
    case isTrue => exact hI
    case isFalse hg =>
      split
      · exact hI
      · rename_i n rest heq
        simp only [Bool.or_eq_true, not_or] at hg
        obtain ⟨⟨hev, hstp⟩, hsome⟩ := hg
        have hnp : n ∈ s.pending_orders := by
          rw [heq]
          exact List.mem_cons_self _ _
        rcases hI.pendingMem n hnp with ⟨o1, honm, honn, honp⟩
        have hnodup := hI.pendingNodup
        rw [heq] at hnodup
        have hnotin : n ∉ rest := (List.nodup_cons.mp hnodup).1
        have hrestnd : rest.Nodup := (List.nodup_cons.mp hnodup).2
        have hnotheld : ∀ b2 ∈ s.bots, b2.current_order ≠ some n := by
          intro b2 hb2 hc
          rcases hI.held b2 hb2 n hc with ⟨o2, ho2m, ho2n, ho2p⟩
          have he : o2 = o1 := hI.num_inj ho2m honm (by rw [ho2n, honn])
          rw [he, honp] at ho2p
          cases ho2p
        refine ⟨?_, ?_, ?_, ?_, hrestnd, ?_, ?_⟩
        · simp [updateOrder, hI.counter]
        · have hmap := orderNums_updateOrder n
            (fun o => { o with status := Status.PROCESSING, start_time := some s.now })
            s.orders (fun o => rfl)
          have hlen2 : (updateOrder n
              (fun o => { o with status := Status.PROCESSING, start_time := some s.now })
              s.orders).length = s.orders.length := by
            simp [updateOrder]
          dsimp only
          rw [hmap, hlen2, hI.ids]
        · intro o2 ho2
          rcases of_mem_updateOrder ho2 with ⟨o, hom, hcase⟩
          rcases hcase with ⟨hnum, rfl⟩ | ⟨_, heq2⟩
          · have he : o = o1 := hI.num_inj hom honm (by rw [hnum, honn])
            have hpend : o.status = Status.PENDING := by rw [he, honp]
            exact (hI.orderInv o hom).startProcessing hpend
          · rw [heq2]
            exact (hI.orderInv o hom).mono (Nat.le_succ _)
        · intro k hk
          have hkp : k ∈ s.pending_orders := by
            rw [heq]
            exact List.mem_cons_of_mem _ hk
          rcases hI.pendingMem k hkp with ⟨ok, hokm, hokn, hokp⟩
          have hkne : ok.order_number ≠ n := by
            intro he
            have hkn : k = n := by rw [← hokn, he]
            rw [hkn] at hk
            exact hnotin hk
          exact ⟨ok, mem_updateOrder_other _ hokm hkne, hokn, hokp⟩
        · intro b2 hb2 m hc
          rcases mem_set_cases s.bots i hb2 with heqb | ⟨j, hj, _, hget⟩
          · have hm : (some n : Option Nat) = some m := by
              rw [heqb] at hc
              exact hc
            have hmn : n = m := Option.some.inj hm
            subst hmn
            refine ⟨{ o1 with status := Status.PROCESSING, start_time := some s.now },
              mem_updateOrder_self _ honm honn, honn, rfl⟩
          · have hb2mem : b2 ∈ s.bots := by
              rw [← hget]
              exact List.get_mem _ _ _
            rcases hI.held b2 hb2mem m hc with ⟨om, homm, homn, homp⟩
            have hmn : m ≠ n := fun he => hnotheld b2 hb2mem (he ▸ hc)
            exact ⟨om, mem_updateOrder_other _ homm (by rw [homn]; exact hmn),
              homn, homp⟩
        · refine pairwise_heldRel_set s.bots i hI.heldDistinct ?_
          intro b2 h2 m hm
          have hm2 : (some n : Option Nat) = some m := hm
          rw [← Option.some.inj hm2]
          exact hnotheld b2 h2

theorem inv_botComplete (i : Nat) (s : ControllerState) (hI : Inv s) :
    Inv (botComplete i s) := by
  unfold botComplete
  split
  case isFalse => exact hI
  case isTrue hlen =>
    split
    case isTrue => exact hI
    case isFalse hg =>
      split
      · exact hI
      · rename_i n heq
        have hbimem : s.bots.get ⟨i, hlen⟩ ∈ s.bots := List.get_mem _ _ _
        rcases hI.held _ hbimem n heq with ⟨o1, honm, honn, honp⟩
        refine ⟨?_, ?_, ?_, ?_, hI.pendingNodup, ?_, ?_⟩
        · simp [updateOrder, hI.counter]
        · have hmap := orderNums_updateOrder n
            (fun o => { o with status := Status.COMPLETE, end_time := some s.now })
            s.orders (fun o => rfl)
          have hlen2 : (updateOrder n
              (fun o => { o with status := Status.COMPLETE, end_time := some s.now })
              s.orders).length = s.orders.length := by
            simp [updateOrder]
          dsimp only
          rw [hmap, hlen2, hI.ids]
        · intro o2 ho2
          rcases of_mem_updateOrder ho2 with ⟨o, hom, hcase⟩
          rcases hcase with ⟨hnum, rfl⟩ | ⟨_, heq2⟩
          · have he : o = o1 := hI.num_inj hom honm (by rw [hnum, honn])
            have hproc : o.status = Status.PROCESSING := by rw [he, honp]
            exact (hI.orderInv o hom).finish hproc
          · rw [heq2]
            exact (hI.orderInv o hom).mono (Nat.le_succ _)
        · intro k hk
          rcases hI.pendingMem k hk with ⟨ok, hokm, hokn, hokp⟩
          have hkne : ok.order_number ≠ n := by
            intro he
            have h3 : ok = o1 := hI.num_inj hokm honm (by rw [he, honn])
            rw [h3, honp] at hokp
            cases hokp
          exact ⟨ok, mem_updateOrder_other _ hokm hkne, hokn, hokp⟩
        · intro b2 hb2 m hc
          rcases mem_set_cases s.bots i hb2 with heqb | ⟨j, hj, hji, hget⟩
          · rw [heqb] at hc
            have hc2 : (none : Option Nat) = some m := hc
            exact absurd hc2 (by simp)
          · have hb2mem : b2 ∈ s.bots := by
              rw [← hget]
              exact List.get_mem _ _ _
            rcases hI.held b2 hb2mem m hc with ⟨om, homm, homn, homp⟩
            have hmn : m ≠ n := by
              intro he
              have hcontra := heldRel_both hI.heldDistinct hlen hj
                (fun h => hji h.symm) n heq
              apply hcontra
              rw [hget, hc, he]
            exact ⟨om, mem_updateOrder_other _ homm (by rw [homn]; exact hmn),
              homn, homp⟩
        · refine pairwise_heldRel_set s.bots i hI.heldDistinct ?_
          intro b2 h2 m hm
          have hm2 : (none : Option Nat) = some m := hm
          exact absurd hm2 (by simp)

/-- The induction behind `shutdown`: stopping the bots one by one preserves
the order-store facts, and every reset touches only an order that was
PROCESSING and held by the bot being stopped. -/
theorem stopBots_inv :
    ∀ (bs : List BotState) (os : List Order) (now : Nat) (pending : List Nat),
      (os.map (fun o => o.order_number)).Nodup →
      (∀ o ∈ os, OrderInv now o) →
      (∀ b ∈ bs, ∀ n, b.current_order = some n →
        ∃ o ∈ os, o.order_number = n ∧ o.status = Status.PROCESSING) →
      List.Pairwise HeldRel bs →
      (∀ n ∈ pending, ∃ o ∈ os, o.order_number = n ∧ o.status = Status.PENDING) →
      ((stopBots bs os).2.map (fun o => o.order_number)
          = os.map (fun o => o.order_number)) ∧
      (∀ o ∈ (stopBots bs os).2, OrderInv now o) ∧
      (∀ n ∈ pending, ∃ o ∈ (stopBots bs os).2,
        o.order_number = n ∧ o.status = Status.PENDING) ∧
      (∀ o2 ∈ (stopBots bs os).2, ∃ o ∈ os, o2.order_number = o.order_number ∧
        (o2 = o ∨ (o.status = Status.PROCESSING ∧
          o2 = { o with status := Status.PENDING, start_time := none }))) := by
  intro bs
  induction bs with
  | nil =>
    intro os now pending hnd hoi _ _ hpend
    refine ⟨rfl, hoi, hpend, ?_⟩
    intro o2 ho2
    exact ⟨o2, ho2, rfl, Or.inl rfl⟩
  | cons b rest ih =>
    intro os now pending hnd hoi hheld hpair hpend
    rcases List.pairwise_cons.mp hpair with ⟨hrelb, hpairrest⟩
    cases hcur : b.current_order with
    | none =>
      have hstep2 : (stopBots (b :: rest) os).2 = (stopBots rest os).2 := by
        simp [stopBots, hcur, cancelOrder]
      rw [hstep2]
      exact ih os now pending hnd hoi
        (fun b2 h2 => hheld b2 (List.mem_cons_of_mem _ h2)) hpairrest hpend
    | some n =>
      rcases hheld b (List.mem_cons_self _ _) n hcur with ⟨o1, honm, honn, honp⟩
      have hstep2 : (stopBots (b :: rest) os).2
          = (stopBots rest (cancelOrder (some n) os)).2 := by
        simp [stopBots, hcur]
      have hnd1 : ((cancelOrder (some n) os).map
          (fun o => o.order_number)).Nodup := by
        simp only [cancelOrder]
        rw [orderNums_updateOrder n
          (fun o => { o with status := Status.PENDING, start_time := none })
          os (fun o => rfl)]
        exact hnd
      have hoi1 : ∀ o ∈ cancelOrder (some n) os, OrderInv now o := by
        intro o2 ho2
        unfold cancelOrder at ho2
        rcases of_mem_updateOrder ho2 with ⟨o, hom, hcase⟩
        rcases hcase with ⟨hnum, rfl⟩ | ⟨_, heq2⟩
        · have he : o = o1 :=
            List.inj_on_of_nodup_map hnd hom honm (by rw [hnum, honn])
          have hproc : o.status = Status.PROCESSING := by rw [he, honp]
          exact (hoi o hom).reset hproc
        · rw [heq2]
          exact hoi o hom
      have hheld1 : ∀ b2 ∈ rest, ∀ m, b2.current_order = some m →
          ∃ o ∈ cancelOrder (some n) os,
            o.order_number = m ∧ o.status = Status.PROCESSING := by
        intro b2 h2 m hc
        rcases hheld b2 (List.mem_cons_of_mem _ h2) m hc with
          ⟨om, homm, homn, homp⟩
        have hmn : m ≠ n := by
          intro he
          exact hrelb b2 h2 n hcur (by rw [hc, he])
        unfold cancelOrder
        exact ⟨om, mem_updateOrder_other _ homm (by rw [homn]; exact hmn),
          homn, homp⟩
      have hpend1 : ∀ k ∈ pending, ∃ o ∈ cancelOrder (some n) os,
          o.order_number = k ∧ o.status = Status.PENDING := by
        intro k hk
        rcases hpend k hk with ⟨ok, hokm, hokn, hokp⟩
        have hkne : ok.order_number ≠ n := by
          intro he
          have h3 : ok = o1 :=
            List.inj_on_of_nodup_map hnd hokm honm (by rw [he, honn])
          rw [h3, honp] at hokp
          cases hokp
        unfold cancelOrder
        exact ⟨ok, mem_updateOrder_other _ hokm hkne, hokn, hokp⟩
      obtain ⟨ihn, ihoi, ihpend, ihchar⟩ :=
        ih (cancelOrder (some n) os) now pending hnd1 hoi1 hheld1 hpairrest
          hpend1
      rw [hstep2]
      refine ⟨?_, ihoi, ihpend, ?_⟩
      · rw [ihn]
        simp only [cancelOrder]
        rw [orderNums_updateOrder n
          (fun o => { o with status := Status.PENDING, start_time := none })
          os (fun o => rfl)]
      · intro o2 ho2
        rcases ihchar o2 ho2 with ⟨oMid, hMidMem, hMidNum, hMidCase⟩
        unfold cancelOrder at hMidMem
        rcases of_mem_updateOrder hMidMem with ⟨o, hom, hcase⟩
        rcases hcase with ⟨hnum, heqMid⟩ | ⟨_, heqMid⟩
        · have he : o = o1 :=
            List.inj_on_of_nodup_map hnd hom honm (by rw [hnum, honn])
          have hproc : o.status = Status.PROCESSING := by rw [he, honp]
          rcases hMidCase with rfl | ⟨hMidProc, _⟩
          · exact ⟨o, hom, by rw [hMidNum, heqMid], Or.inr ⟨hproc, heqMid⟩⟩
          · rw [heqMid] at hMidProc
            cases hMidProc
        · rw [heqMid] at hMidCase hMidNum
          exact ⟨o, hom, hMidNum, hMidCase⟩

/-- Bots that hold nothing are trivially pairwise `HeldRel`. -/
theorem pairwise_heldRel_of_none :
    ∀ l : List BotState, (∀ b ∈ l, b.current_order = none) →
      List.Pairwise HeldRel l := by
  intro l
  induction l with
  | nil => exact fun _ => List.Pairwise.nil
  | cons b rest ih =>
    intro h
    refine List.pairwise_cons.mpr
      ⟨?_, ih (fun b2 h2 => h b2 (List.mem_cons_of_mem _ h2))⟩
    intro b2 _ m hm
    rw [h b (List.mem_cons_self _ _)] at hm
    cases hm

theorem inv_shutdown (s : ControllerState) (hI : Inv s) : Inv (shutdown s) := by
  obtain ⟨hnums, hoi, hpend, _⟩ :=
    stopBots_inv s.bots s.orders s.now s.pending_orders hI.numsNodup
      hI.orderInv hI.held hI.heldDistinct hI.pendingMem
  have hlen : (stopBots s.bots s.orders).2.length = s.orders.length := by
    have h2 := congrArg List.length hnums
    simpa using h2
  refine ⟨?_, ?_, hoi, hpend, hI.pendingNodup, ?_, ?_⟩
  · show s.order_number = (stopBots s.bots s.orders).2.length
    rw [hlen]
    exact hI.counter
  · show (stopBots s.bots s.orders).2.map (fun o => o.order_number)
      = List.range' 1 (stopBots s.bots s.orders).2.length
    rw [hnums, hlen, hI.ids]
  · intro b hb m hc
    have h3 := (stopBots_all_stopped s.bots s.orders b hb).2.1
    rw [h3] at hc
    cases hc
  · exact pairwise_heldRel_of_none _
      (fun b hb => (stopBots_all_stopped s.bots s.orders b hb).2.1)

theorem inv_step {s s2 : ControllerState} (hI : Inv s) (hs : Step s s2) :
    Inv s2 := by
  cases hs with
  | addOrder t s => exact inv_add_order t s hI
  | addBot s => exact inv_add_bot s hI
  | removeBot s => exact inv_remove_bot s hI
  | acquire i s => exact inv_botAcquire i s hI
  | complete i s => exact inv_botComplete i s hI
  | shutdownStep s => exact inv_shutdown s hI

/-- Every reachable state of the controller satisfies the invariant. -/
theorem reachable_inv {s : ControllerState} (h : Reachable s) : Inv s := by
  induction h with
  | init => exact inv_initialState
  | step ha hs ih => exact inv_step ih hs

/-- Claim C10: in every reachable state, every entry of the pending queue
refers to an existing order whose status is PENDING, and no order appears
in the queue twice. -/
theorem c10_pending_all_pending_nodup (s : ControllerState) (h : Reachable s) :
    (∀ n ∈ s.pending_orders,
      ∃ o ∈ s.orders, o.order_number = n ∧ o.status = Status.PENDING) ∧
    s.pending_orders.Nodup :=
  ⟨(reachable_inv h).pendingMem, (reachable_inv h).pendingNodup⟩

/-- Claim C10 witness: the invariant instantiated at the concrete reachable
state `stateC` (one order, acquired by one bot). -/
theorem c10_witness :
    (∀ n ∈ stateC.pending_orders,
      ∃ o ∈ stateC.orders, o.order_number = n ∧ o.status = Status.PENDING) ∧
    stateC.pending_orders.Nodup :=
  c10_pending_all_pending_nodup stateC reachable_stateC

/-- How a single step can change the order store: unchanged, one new PENDING
order appended, the queue head marked PROCESSING, a held order marked
COMPLETE, a held order reset to PENDING, or the shutdown sweep. -/
inductive OrdersChange (s : ControllerState) : List Order → Prop
  | same : OrdersChange s s.orders
  | appended (o : Order) (hnum : o.order_number = s.order_number + 1) :
      OrdersChange s (s.orders ++ [o])
  | started (n : Nat) (rest : List Nat) (h : s.pending_orders = n :: rest) :
      OrdersChange s (updateOrder n
        (fun o => { o with status := Status.PROCESSING, start_time := some s.now })
        s.orders)
  | completed (n : Nat) (h : ∃ b ∈ s.bots, b.current_order = some n) :
      OrdersChange s (updateOrder n
        (fun o => { o with status := Status.COMPLETE, end_time := some s.now })
        s.orders)
  | cancelled (n : Nat) (h : ∃ b ∈ s.bots, b.current_order = some n) :
      OrdersChange s (cancelOrder (some n) s.orders)
  | stopped : OrdersChange s (stopBots s.bots s.orders).2

theorem step_ordersChange {s s2 : ControllerState} (hs : Step s s2) :
    OrdersChange s s2.orders := by
  cases hs with
  | addOrder t s =>
    rw [add_order_orders]
    exact OrdersChange.appended _ rfl
  | addBot s =>
    rw [add_bot_state]
    exact OrdersChange.same
  | removeBot s =>
    rcases hb : s.bots.getLast? with _ | b
    · simp only [remove_bot, hb]
      exact OrdersChange.same
    · have hne : s.bots ≠ [] := by
        intro h
        rw [h] at hb
        simp at hb
      have hbmem : b ∈ s.bots := by
        have h1 := List.getLast?_eq_getLast_of_ne_nil hne
        rw [hb] at h1
        exact (Option.some.inj h1) ▸ List.getLast_mem hne
      cases hcur : b.current_order with
      | none =>
        simp only [remove_bot, hb, hcur, cancelOrder]
        exact OrdersChange.same
      | some n =>
        simp only [remove_bot, hb, hcur]
        exact OrdersChange.cancelled n ⟨b, hbmem, hcur⟩
  | acquire i s =>
    unfold botAcquire
    split
    case isFalse => exact OrdersChange.same
    case isTrue hlen =>
      split
      case isTrue => exact OrdersChange.same
      case isFalse =>
        split
        · exact OrdersChange.same
        · rename_i n rest heq
          exact OrdersChange.started n rest heq
  | complete i s =>
    unfold botComplete
    split
    case isFalse => exact OrdersChange.same
    case isTrue hlen =>
      split
      case isTrue => exact OrdersChange.same
      case isFalse =>
        split
        · exact OrdersChange.same
        · rename_i n heq
          exact OrdersChange.completed n ⟨s.bots.get ⟨i, hlen⟩,
            List.get_mem _ _ _, heq⟩
  | shutdownStep s => exact OrdersChange.stopped

theorem ordersChange_status {s : ControllerState} {os2 : List Order}
    (hI : Inv s) (hc : OrdersChange s os2) :
    ∀ o ∈ s.orders, ∀ o2 ∈ os2, o.order_number = o2.order_number →
      o.status ≠ o2.status →
      (o.status = Status.PENDING ∧ o2.status = Status.PROCESSING) ∨
      (o.status = Status.PROCESSING ∧ o2.status = Status.COMPLETE) ∨
      (o.status = Status.PROCESSING ∧ o2.status = Status.PENDING) := by
  intro o ho o2 ho2 hnum hne
  cases hc with
  | same =>
    exact absurd (congrArg Order.status (hI.num_inj ho ho2 hnum)) hne
  | appended onew hnew =>
    rcases List.mem_append.mp ho2 with h | h
    · exact absurd (congrArg Order.status (hI.num_inj ho h hnum)) hne
    · rw [List.mem_singleton] at h
      subst h
      have h2 := hI.num_le ho
      have h3 := hI.counter
      exfalso
      omega
  | started n rest heq =>
    have hnp : n ∈ s.pending_orders := by
      rw [heq]
      exact List.mem_cons_self _ _
    rcases hI.pendingMem n hnp with ⟨o1, honm, honn, honp⟩
    rcases of_mem_updateOrder ho2 with ⟨o3, hom, hcase⟩
    rcases hcase with ⟨hn3, heq3⟩ | ⟨_, heq3⟩
    · have hon : o2.order_number = o3.order_number := by rw [heq3]
      have ho31 : o3 = o1 := hI.num_inj hom honm (by rw [hn3, honn])
      have hoo : o = o3 := hI.num_inj ho hom (by rw [hnum, hon])
      left
      constructor
      · rw [hoo, ho31, honp]
      · rw [heq3]
    · have hoo : o = o3 := hI.num_inj ho hom (by rw [hnum, heq3])
      exact absurd (congrArg Order.status (hoo.trans heq3.symm)) hne
  | completed n hex =>
    rcases hex with ⟨b, hbm, hcur⟩
    rcases hI.held b hbm n hcur with ⟨o1, honm, honn, honp⟩
    rcases of_mem_updateOrder ho2 with ⟨o3, hom, hcase⟩
    rcases hcase with ⟨hn3, heq3⟩ | ⟨_, heq3⟩
    · have hon : o2.order_number = o3.order_number := by rw [heq3]
      have ho31 : o3 = o1 := hI.num_inj hom honm (by rw [hn3, honn])
      have hoo : o = o3 := hI.num_inj ho hom (by rw [hnum, hon])
      right
      left
      constructor
      · rw [hoo, ho31, honp]
      · rw [heq3]
    · have hoo : o = o3 := hI.num_inj ho hom (by rw [hnum, heq3])
      exact absurd (congrArg Order.status (hoo.trans heq3.symm)) hne
  | cancelled n hex =>
    rcases hex with ⟨b, hbm, hcur⟩
    rcases hI.held b hbm n hcur with ⟨o1, honm, honn, honp⟩
    simp only [cancelOrder] at ho2
    rcases of_mem_updateOrder ho2 with ⟨o3, hom, hcase⟩
    rcases hcase with ⟨hn3, heq3⟩ | ⟨_, heq3⟩
    · have hon : o2.order_number = o3.order_number := by rw [heq3]
      have ho31 : o3 = o1 := hI.num_inj hom honm (by rw [hn3, honn])
      have hoo : o = o3 := hI.num_inj ho hom (by rw [hnum, hon])
      right
      right
      constructor
      · rw [hoo, ho31, honp]
      · rw [heq3]
    · have hoo : o = o3 := hI.num_inj ho hom (by rw [hnum, heq3])
      exact absurd (congrArg Order.status (hoo.trans heq3.symm)) hne
  | stopped =>
    obtain ⟨_, _, _, hchar⟩ :=
      stopBots_inv s.bots s.orders s.now s.pending_orders hI.numsNodup
        hI.orderInv hI.held hI.heldDistinct hI.pendingMem
    rcases hchar o2 ho2 with ⟨o3, hom, hnum3, hcase⟩
    have hoo : o = o3 := hI.num_inj ho hom (by rw [hnum, hnum3])
    rcases hcase with heq3 | ⟨hproc, heq3⟩
    · exact absurd (congrArg Order.status (hoo.trans heq3.symm)) hne
    · right
      right
      constructor
      · rw [hoo]
        exact hproc
      · rw [heq3]

/-- Claim C4: in every reachable state, an order with its end timestamp set
has its start timestamp set and is COMPLETE; a COMPLETE order satisfies
`createdAt < startedAt < completedAt`; and across any single step a status
change is PENDING→PROCESSING, PROCESSING→COMPLETE or PROCESSING→PENDING,
never skipping a state. -/
theorem c4_status_lifecycle (s : ControllerState) (h : Reachable s) :
    (∀ o ∈ s.orders,
      (∀ u, o.end_time = some u →
        o.start_time.isSome = true ∧ o.status = Status.COMPLETE) ∧
      (o.status = Status.COMPLETE →
        ∃ t u, o.start_time = some t ∧ o.end_time = some u ∧
          o.creation_time < t ∧ t < u)) ∧
    (∀ s2, Step s s2 → ∀ o ∈ s.orders, ∀ o2 ∈ s2.orders,
      o.order_number = o2.order_number → o.status ≠ o2.status →
      (o.status = Status.PENDING ∧ o2.status = Status.PROCESSING) ∨
      (o.status = Status.PROCESSING ∧ o2.status = Status.COMPLETE) ∨
      (o.status = Status.PROCESSING ∧ o2.status = Status.PENDING)) := by
  have hI := reachable_inv h
  constructor
  · intro o ho
    have hoi := hI.orderInv o ho
    constructor
    · intro u hu
      have hst := hoi.end_complete u hu
      rcases hoi.complete_shape hst with ⟨t, u2, ht, _, _⟩
      refine ⟨?_, hst⟩
      rw [ht]
      rfl
    · intro hst
      rcases hoi.complete_shape hst with ⟨t, u, ht, hu, htu⟩
      have hb := hoi.start_bounds t ht
      exact ⟨t, u, ht, hu, hb.1, htu⟩
  · intro s2 hs
    exact ordersChange_status hI (step_ordersChange hs)

/-- The completed order of the concrete execution ending in `stateE`. -/
def orderE : Order :=
  { order_number := 1, type := OrderType.normal, status := Status.COMPLETE
    creation_time := 0, start_time := some 1, end_time := some 2 }

/-- Claim C4 witness: the lifecycle facts instantiated at the concrete
reachable state `stateE`, whose single order ran to completion. -/
theorem c4_witness :
    ∃ t u, orderE.start_time = some t ∧ orderE.end_time = some u ∧
      orderE.creation_time < t ∧ t < u :=
  ((c4_status_lifecycle stateE reachable_stateE).1 orderE (by decide)).2
    (by decide)

end McDonaldApp
